import Mathlib

/-!
# Verification of the DNS message decoder (package dns, message.go)

The decoder is embedded as pure Lean functions.

* A Go byte slice is a window on a backing array: it has a length and a
  capacity.  An index expression s[i] is checked against the length, a slice
  expression s[lo:hi] against the capacity, and s[lo:] against the length.
  `Slice` keeps the backing array from the first element of the window up to
  the capacity, together with the length.
* A byte is a `Fin 256`; the wider unsigned integers are natural numbers,
  reduced modulo 2^16 where the Go type is uint16.
* A call of a Go function ends in one of three ways: it returns a value with a
  nil error, it returns a non-nil error, or a run-time panic (index or slice
  bounds out of range) unwinds it.  `Res` records which; its fourth
  constructor marks an exhausted step budget of the model; `Parse_outcome`
  shows that `Parse` never produces it.
-/

namespace dns

/-- One octet. -/
abbrev Byte := Fin 256

/-- Go value of type []byte: `arr` is the backing array from the first element
of the slice to its capacity, `len` the length of the slice. -/
structure Slice where
  arr : List Byte
  len : Nat
  len_le : len ≤ arr.length

/-- Capacity, cap(s). -/
def Slice.cap (s : Slice) : Nat := s.arr.length

/-- The elements of the slice, s[0], ..., s[len(s)-1]. -/
def Slice.bytes (s : Slice) : List Byte := s.arr.take s.len

/-- Slice made by a composite literal or a conversion: capacity equals length. -/
def Slice.ofList (l : List Byte) : Slice := ⟨l, l.length, le_refl _⟩

/-- Index expression s[i]; `none` is the run-time panic "index out of range". -/
def Slice.index (s : Slice) (i : Nat) : Option Byte :=
  if i < s.len then s.arr[i]? else none

/-- Slice expression s[lo:hi]; `none` is the run-time panic "slice bounds out of
range".  The upper bound is checked against the capacity. -/
def Slice.slice (s : Slice) (lo hi : Nat) : Option Slice :=
  if h : lo ≤ hi ∧ hi ≤ s.arr.length then
    some ⟨s.arr.drop lo, hi - lo, by rw [List.length_drop]; omega⟩
  else none

/-- Slice expression s[lo:], whose upper bound is len(s). -/
def Slice.sliceFrom (s : Slice) (lo : Nat) : Option Slice :=
  if h : lo ≤ s.len then
    some ⟨s.arr.drop lo, s.len - lo, by
      have := s.len_le
      rw [List.length_drop]; omega⟩
  else none

/-- Outcome of a call. -/
inductive Res (α : Type) where
  | ok (a : α)
  | err (msg : String)
  | panic
  | fuel
  deriving DecidableEq, Repr

/-- Header of a message (type header). -/
structure header where
  id : Nat
  qr : Bool
  opcode : Nat
  aa : Bool
  tc : Bool
  rd : Bool
  ra : Bool
  qdcount : Nat
  deriving DecidableEq, Repr

/-- Name of a question (type qname, [][]byte): the labels, each given by its
bytes. -/
abbrev qname := List (List Byte)

/-- Entry of the question section (type question). -/
structure question where
  name : qname
  qtype : Nat
  qclass : Nat
  deriving DecidableEq, Repr

/-- Decoded message (type Message). -/
structure Message where
  header : dns.header
  questions : List question
  deriving DecidableEq, Repr

/-- Function binary.BigEndian.Uint16: `_ = b[1]` followed by
`uint16(b[1]) | uint16(b[0])<<8`. -/
def Uint16 (b : Slice) : Option Nat :=
  match b.index 1 with
  | none => none
  | some b1 =>
    match b.index 0 with
    | none => none
    | some b0 => some (b1.val ||| ((b0.val <<< 8) % 65536))

/-- The `for` loop of parseQuestion, started with cursor `n` and the labels
`name` collected so far; it leaves through `break` with the cursor on the zero
octet.  The first argument bounds the number of iterations. -/
def parseQuestionLoop (data : Slice) : Nat → Nat → qname → Res (Nat × qname)
  | 0, _, _ => Res.fuel
  | k + 1, n, name =>
    match data.index n with
    | none => Res.panic
    | some b =>
      let ll := b.val
      if ll = 0 then Res.ok (n, name)
      else
        match data.slice (n + 1) (n + 1 + ll) with
        | none => Res.panic
        | some label => parseQuestionLoop data k (n + (ll + 1)) (name ++ [label.bytes])

/-- Function parseQuestion: the question and the count it returns. -/
def parseQuestion (data : Slice) : Res (question × Nat) :=
  match parseQuestionLoop data (data.len + 1) 0 [] with
  | Res.fuel => Res.fuel
  | Res.panic => Res.panic
  | Res.err e => Res.err e
  | Res.ok (n, name) =>
    match data.index n with
    | none => Res.panic
    | some b =>
      if b.val ≠ 0 then Res.err "null-terminator expected"
      else
        let n := n + 1
        match (data.slice n (n + 2)).bind Uint16 with
        | none => Res.panic
        | some qtype =>
          match (data.slice (n + 2) (n + 4)).bind Uint16 with
          | none => Res.panic
          | some qclass => Res.ok (⟨name, qtype, qclass⟩, n)

/-- The header literal at the start of Parse; `none` when one of its index or
slice expressions panics.  The fields aa and tc are not set and keep their zero
value. -/
def parseHeader (packet : Slice) : Option header :=
  match (packet.slice 0 2).bind Uint16 with
  | none => none
  | some id =>
    match packet.index 2 with
    | none => none
    | some b2 =>
      match packet.index 3 with
      | none => none
      | some b3 =>
        match (packet.slice 4 6).bind Uint16 with
        | none => none
        | some qdcount =>
          some
            { id := id
              qr := decide ((b2.val &&& 0b10000000) > 0)
              opcode := b2.val &&& 0b01111000
              aa := false
              tc := false
              rd := decide ((b2.val &&& 0b00000001) > 0)
              ra := decide ((b3.val &&& 0b10000000) > 0)
              qdcount := qdcount }

/-- The `for len(questions) < int(h.qdcount)` loop of Parse, started with the
given offset and questions.  The first argument bounds the number of
iterations. -/
def ParseLoop (packet : Slice) (qdcount : Nat) : Nat → Nat → List question → Res (List question)
  | 0, _, questions => if questions.length < qdcount then Res.fuel else Res.ok questions
  | k + 1, offset, questions =>
    if questions.length < qdcount then
      match packet.sliceFrom (12 + offset) with
      | none => Res.panic
      | some data =>
        match parseQuestion data with
        | Res.fuel => Res.fuel
        | Res.panic => Res.panic
        | Res.err e => Res.err ("failed to parse question: " ++ e)
        | Res.ok (q, n) => ParseLoop packet qdcount k (offset + n) (questions ++ [q])
    else Res.ok questions

/-- Function Parse. -/
def Parse (packet : Slice) : Res Message :=
  match parseHeader packet with
  | none => Res.panic
  | some h =>
    match ParseLoop packet h.qdcount h.qdcount 0 [] with
    | Res.fuel => Res.fuel
    | Res.panic => Res.panic
    | Res.err e => Res.err e
    | Res.ok questions => Res.ok ⟨h, questions⟩

/-- Method Message.Questions. -/
def Message.Questions (m : Message) : List question := m.questions

/-- Method qname.String, `string(bytes.Join(n, []byte(".")))`, as the bytes of
the Go string. -/
def qname.String (n : qname) : List Byte := List.intercalate [46] n

/-- Method question.String. -/
def question.String (q : question) : List Byte := qname.String q.name

/-- Bytes of a text, to write the expected value of a rendered name. -/
def ascii (s : String) : List Nat := s.toList.map Char.toNat

/-- Packet of TestSuccessfulParse. -/
def testPacket : List Byte :=
  [48, 57, 1, 0, 0, 1, 0, 0, 0, 0, 0, 0,
   7, 101, 120, 97, 109, 112, 108, 101, 3, 99, 111, 109, 0, 0, 1, 0, 1]

/-- Message decoded from the packet of TestSuccessfulParse. -/
def testMessage : Message :=
  ⟨⟨12345, false, 0, false, false, true, false, 1⟩,
   [⟨[[101, 120, 97, 109, 112, 108, 101], [99, 111, 109]], 1, 1⟩]⟩

/-! ## Wire format, used to state the properties -/

/-- Slice with the elements `l` whose backing array goes on with `extra`:
length `l.length`, capacity `l.length + extra.length`. -/
def Slice.window (l extra : List Byte) : Slice :=
  ⟨l ++ extra, l.length, by simp⟩

/-- Octet with the given value (taken modulo 256). -/
def octet (n : Nat) : Byte := ⟨n % 256, Nat.mod_lt _ (by decide)⟩

/-- Wire form of a sequence of labels, without the terminator: each label as its
length octet followed by its bytes. -/
def encLabels : qname → List Byte
  | [] => []
  | l :: ls => octet l.length :: (l ++ encLabels ls)

/-- Wire form of a name: the labels, then one zero octet. -/
def encName (labels : qname) : List Byte := encLabels labels ++ [0]

/-- Big-endian form of a 16-bit value. -/
def be16 (v : Nat) : List Byte := [octet (v / 256), octet (v % 256)]

/-- Wire form of a question record. -/
def encQuestion (q : question) : List Byte :=
  encName q.name ++ be16 q.qtype ++ be16 q.qclass

/-- Header octets with id 0, no flag set and the given question count. -/
def plainHeader (qdcount : Nat) : List Byte :=
  [0, 0, 0, 0] ++ be16 qdcount ++ [0, 0, 0, 0, 0, 0]

/-- Header that the literal of Parse builds from the first six octets of the
backing array. -/
def headerOf (arr : List Byte) : header :=
  { id := 256 * (arr.getD 0 0).val + (arr.getD 1 0).val
    qr := decide (((arr.getD 2 0).val &&& 128) > 0)
    opcode := (arr.getD 2 0).val &&& 120
    aa := false
    tc := false
    rd := decide (((arr.getD 2 0).val &&& 1) > 0)
    ra := decide (((arr.getD 3 0).val &&& 128) > 0)
    qdcount := 256 * (arr.getD 4 0).val + (arr.getD 5 0).val }

/-- Packet announcing two questions, "a" and "b", both of type 1 and class 1. -/
def twoQuestions : List Byte :=
  plainHeader 2 ++ encQuestion ⟨[[97]], 1, 1⟩ ++ encQuestion ⟨[[98]], 1, 1⟩

/-- Packet whose only question starts with the octet 192 followed by 192 bytes. -/
def pointerPacket : List Byte :=
  plainHeader 1 ++ [192] ++ List.replicate 192 97 ++ [0, 0, 1, 0, 1]

/-- Header with id 12345, opcode 5 (byte 2 is 0b00101000) and no question. -/
def opcodePacket : List Byte :=
  [48, 57, 40, 0, 0, 0, 0, 0, 0, 0, 0, 0]

/-- Packet with one question whose first length octet, 5, is followed by a
single byte. -/
def overrunPacket : List Byte := plainHeader 1 ++ [5, 97]

/-- Labels joined by dots, following the words of the specification: nothing
for no label, the label itself for one label, and otherwise the first label, one
dot and the rest joined in the same way. -/
def dotJoined : qname → List Byte
  | [] => []
  | [l] => l
  | l :: l2 :: ls => l ++ 46 :: dotJoined (l2 :: ls)

/-- The backing array of `t` starts with the backing array of `s`, and `t` is at
least as long as `s`. -/
def Slice.Within (s t : Slice) : Prop :=
  (∃ x, t.arr = s.arr ++ x) ∧ s.len ≤ t.len

/-- Header whose byte 2 is 0b00000110 (aa and tc set), with no question. -/
def flagsPacket : List Byte :=
  [0, 0, 6, 0, 0, 0, 0, 0, 0, 0, 0, 0]

/-- Packet whose only question has one label of 64 bytes. -/
def longLabelPacket : List Byte :=
  plainHeader 1 ++ [64] ++ List.replicate 64 97 ++ [0, 0, 1, 0, 1]

/-- Question record of the name "a" with type 1 and class 1: seven octets. -/
def recordA : List Byte := encQuestion ⟨[[97]], 1, 1⟩

/-- Buffer of 13 bytes, a header announcing one question and the zero octet of
an empty name, cut out of an array of 17 bytes: type and class lie in the spare
capacity. -/
def spareCapacityBuffer : Slice :=
  Slice.window (plainHeader 1 ++ [0]) [0, 1, 0, 1]

/-! ## Auxiliary lemmas -/

set_option maxRecDepth 100000

theorem be16_or (hi lo : Byte) :
    lo.val ||| ((hi.val <<< 8) % 65536) = 256 * hi.val + lo.val := by
  have h1 := hi.isLt
  have h2 : lo.val < 2 ^ 8 := lo.isLt
  have h3 : hi.val <<< 8 = 2 ^ 8 * hi.val := by rw [Nat.shiftLeft_eq, Nat.mul_comm]
  rw [h3, Nat.mod_eq_of_lt (by omega), Nat.or_comm, ← Nat.mul_add_lt_is_or h2]

theorem index_none (s : Slice) (i : Nat) (h : s.len ≤ i) : s.index i = none := by
  simp [Slice.index]; omega

theorem slice_uint16 (s : Slice) (lo : Nat) (h : lo + 2 ≤ s.arr.length) :
    (s.slice lo (lo + 2)).bind Uint16
      = some (256 * (s.arr.getD lo 0).val + (s.arr.getD (lo + 1) 0).val) := by
  have h0 : lo < s.arr.length := by omega
  have h1 : lo + 1 < s.arr.length := by omega
  simp [Slice.slice, h, Uint16, Slice.index, List.getElem?_drop, List.getElem?_eq_getElem h0,
    List.getElem?_eq_getElem h1, be16_or, List.getD_eq_getElem?_getD]

theorem slice_uint16_none (s : Slice) (lo : Nat) (h : s.arr.length < lo + 2) :
    (s.slice lo (lo + 2)).bind Uint16 = none := by
  simp [Slice.slice]; omega


theorem length_le_of_drop {α : Type} {l xs : List α} {n : Nat} (h : l.drop n = xs) :
    n + xs.length ≤ l.length ∨ xs = [] := by
  by_cases hn : n ≤ l.length
  · left
    have := congrArg List.length h
    rw [List.length_drop] at this
    omega
  · right
    rw [← h]
    exact List.drop_eq_nil_of_le (by omega)

theorem index_of_drop (data : Slice) (n : Nat) (b : Byte) (r : List Byte)
    (h : data.arr.drop n = b :: r) (hn : n < data.len) : data.index n = some b := by
  have hlt : n < data.arr.length := lt_of_lt_of_le hn data.len_le
  rw [List.drop_eq_getElem_cons hlt] at h
  simp only [List.cons.injEq] at h
  simp [Slice.index, hn, List.getElem?_eq_getElem hlt, h.1]

theorem slice_of_drop (data : Slice) (lo : Nat) (xs r : List Byte)
    (h : data.arr.drop lo = xs ++ r) (hlo : lo ≤ data.arr.length) :
    ∃ s, data.slice lo (lo + xs.length) = some s ∧ s.bytes = xs := by
  have hlen : lo + xs.length ≤ data.arr.length := by
    have := congrArg List.length h
    rw [List.length_drop, List.length_append] at this
    omega
  refine ⟨⟨data.arr.drop lo, lo + xs.length - lo, by rw [List.length_drop]; omega⟩, ?_, ?_⟩
  · simp [Slice.slice, hlen]
  · simp [Slice.bytes, h]

theorem slice_none (data : Slice) (lo hi : Nat) (h : data.arr.length < hi) :
    data.slice lo hi = none := by
  simp [Slice.slice]; omega

theorem encLabels_append (a b : qname) : encLabels (a ++ b) = encLabels a ++ encLabels b := by
  induction a with
  | nil => rfl
  | cons l ls ih => simp [encLabels, ih]

/-- The loop walks over a run of encoded labels, collecting them. -/
theorem loop_labels (data : Slice) (labels : qname)
    (hl : ∀ l ∈ labels, 1 ≤ l.length ∧ l.length ≤ 255) :
    ∀ (k n : Nat) (name : qname) (rest : List Byte),
      data.arr.drop n = encLabels labels ++ rest →
      n + (encLabels labels).length ≤ data.len →
      parseQuestionLoop data (k + labels.length) n name
        = parseQuestionLoop data k (n + (encLabels labels).length) (name ++ labels) := by
  induction labels with
  | nil => intro k n name rest _ _; simp [encLabels]
  | cons l ls ih =>
    intro k n name rest hd hn
    have hl1 := hl l (List.mem_cons_self _ _)
    have hlen := data.len_le
    simp only [encLabels, List.length_cons, List.length_append] at hn
    simp only [encLabels, List.cons_append, List.append_assoc] at hd
    have hidx := index_of_drop data n _ _ hd (by omega)
    have hval : (octet l.length).val = l.length := by
      show l.length % 256 = l.length
      exact Nat.mod_eq_of_lt (by omega)
    have hd1 : data.arr.drop (n + 1) = l ++ (encLabels ls ++ rest) := by
      rw [← List.drop_drop, hd]; rfl
    obtain ⟨s, hs, hb⟩ := slice_of_drop data (n + 1) l _ hd1 (by omega)
    have hd2 : data.arr.drop (n + (l.length + 1)) = encLabels ls ++ rest := by
      have : n + (l.length + 1) = n + 1 + l.length := by omega
      rw [this, ← List.drop_drop, hd1, List.drop_left]
    have step : parseQuestionLoop data (k + ls.length + 1) n name
        = parseQuestionLoop data (k + ls.length) (n + (l.length + 1)) (name ++ [l]) := by
      rw [parseQuestionLoop]
      simp only [hidx, hval]
      rw [if_neg (by omega), hs]
      simp only [hb]
    have := ih (fun x hx => hl x (List.mem_cons_of_mem _ hx)) k (n + (l.length + 1))
      (name ++ [l]) rest hd2 (by omega)
    simp only [List.length_cons, encLabels, List.length_append]
    rw [← Nat.add_assoc, step, this]
    congr 1
    · omega
    · simp


theorem index_getD (s : Slice) (i : Nat) (h : i < s.len) :
    s.index i = some (s.arr.getD i 0) := by
  have hlt : i < s.arr.length := lt_of_lt_of_le h s.len_le
  simp [Slice.index, h, List.getElem?_eq_getElem hlt, List.getD_eq_getElem?_getD]

theorem parseHeader_some (s : Slice) (h4 : 4 ≤ s.len) (h6 : 6 ≤ s.arr.length) :
    parseHeader s = some (headerOf s.arr) := by
  have e0 := slice_uint16 s 0 (by omega)
  have e4 := slice_uint16 s 4 (by omega)
  have e2 := index_getD s 2 (by omega)
  have e3 := index_getD s 3 (by omega)
  simp only [Nat.zero_add, Nat.reduceAdd] at e0 e4
  simp only [parseHeader, e0, e4, e2, e3, headerOf]

theorem parseHeader_none (s : Slice) (h : s.len < 4 ∨ s.arr.length < 6) :
    parseHeader s = none := by
  unfold parseHeader
  by_cases h2 : s.arr.length < 2
  · have := slice_uint16_none s 0 (by omega)
    simp only [Nat.zero_add] at this
    simp only [this]
  · have e0 := slice_uint16 s 0 (by omega)
    simp only [Nat.zero_add] at e0
    simp only [e0]
    by_cases h3 : s.len ≤ 2
    · simp only [index_none s 2 h3]
    · simp only [index_getD s 2 (by omega)]
      by_cases h4 : s.len ≤ 3
      · simp only [index_none s 3 h4]
      · simp only [index_getD s 3 (by omega)]
        have := slice_uint16_none s 4 (by omega)
        simp only [Nat.reduceAdd] at this
        simp only [this]

theorem uint16_of_drop (data : Slice) (n : Nat) (hi lo : Byte) (r : List Byte)
    (h : data.arr.drop n = hi :: lo :: r) :
    (data.slice n (n + 2)).bind Uint16 = some (256 * hi.val + lo.val) := by
  have hlen : n + 2 ≤ data.arr.length := by
    rcases length_le_of_drop h with h1 | h1
    · simp only [List.length_cons] at h1; omega
    · cases h1
  rw [slice_uint16 data n hlen]
  have h0 : data.arr.getD n 0 = hi := by
    rw [List.drop_eq_getElem_cons (by omega)] at h
    simp only [List.cons.injEq] at h
    simp [List.getD_eq_getElem?_getD, List.getElem?_eq_getElem (show n < data.arr.length by omega), h.1]
  have h1 : data.arr.getD (n + 1) 0 = lo := by
    have h' : data.arr.drop (n + 1) = lo :: r := by
      rw [← List.drop_drop, h]; rfl
    rw [List.drop_eq_getElem_cons (by omega)] at h'
    simp only [List.cons.injEq] at h'
    simp [List.getD_eq_getElem?_getD, List.getElem?_eq_getElem (show n + 1 < data.arr.length by omega), h'.1]
  rw [h0, h1]

theorem be16_value (v : Nat) (h : v < 65536) :
    256 * (octet (v / 256)).val + (octet (v % 256)).val = v := by
  show 256 * ((v / 256) % 256) + (v % 256) % 256 = v
  omega

theorem length_le_encLabels (labels : qname) : labels.length ≤ (encLabels labels).length := by
  induction labels with
  | nil => simp
  | cons l ls ih => simp [encLabels]; omega

/-- A well-formed question record is decoded; the count is the length of the
encoded name. -/
theorem parseQuestion_record (data : Slice) (labels : qname) (qtype qclass : Nat)
    (rest : List Byte)
    (hl : ∀ l ∈ labels, 1 ≤ l.length ∧ l.length ≤ 255)
    (hqt : qtype < 65536) (hqc : qclass < 65536)
    (hd : data.arr = encName labels ++ (be16 qtype ++ (be16 qclass ++ rest)))
    (hn : (encName labels).length ≤ data.len) :
    parseQuestion data = Res.ok (⟨labels, qtype, qclass⟩, (encName labels).length) := by
  have hle := length_le_encLabels labels
  simp only [encName, List.length_append, List.length_singleton] at hn
  have hd0 : data.arr.drop 0 = encLabels labels ++ (0 :: (be16 qtype ++ (be16 qclass ++ rest))) := by
    simp [hd, encName]
  obtain ⟨k, hk⟩ : ∃ k, data.len + 1 = (k + 1) + labels.length := ⟨data.len - labels.length, by omega⟩
  have hloop := loop_labels data labels hl (k + 1) 0 [] _ hd0 (by omega)
  simp only [Nat.zero_add, List.nil_append] at hloop
  have hdn : data.arr.drop (encLabels labels).length
      = 0 :: (be16 qtype ++ (be16 qclass ++ rest)) := by
    rw [hd, encName, List.append_assoc, List.drop_left]; rfl
  have hidx := index_of_drop data _ _ _ hdn (by omega)
  have h1 : data.arr.drop ((encLabels labels).length + 1)
      = octet (qtype / 256) :: octet (qtype % 256) :: (be16 qclass ++ rest) := by
    rw [← List.drop_drop, hdn]; rfl
  have h2 : data.arr.drop ((encLabels labels).length + 1 + 2)
      = octet (qclass / 256) :: octet (qclass % 256) :: rest := by
    rw [← List.drop_drop, h1]; rfl
  have u1 := uint16_of_drop data _ _ _ _ h1
  have u2 := uint16_of_drop data _ _ _ _ h2
  rw [be16_value _ hqt] at u1
  rw [be16_value _ hqc] at u2
  have hstep : parseQuestionLoop data (k + 1) (encLabels labels).length labels
      = Res.ok ((encLabels labels).length, labels) := by
    rw [parseQuestionLoop]
    simp [hidx]
  unfold parseQuestion
  rw [hk, hloop, hstep]
  simp only [hidx]
  simp [u1, u2, encName]


theorem sliceFrom_some (s : Slice) (lo : Nat) (h : lo ≤ s.len) :
    ∃ d, s.sliceFrom lo = some d ∧ d.arr = s.arr.drop lo ∧ d.len = s.len - lo := by
  refine ⟨⟨s.arr.drop lo, s.len - lo, ?_⟩, ?_, rfl, rfl⟩
  · have := s.len_le
    rw [List.length_drop]; omega
  · simp [Slice.sliceFrom, h]

theorem sliceFrom_none (s : Slice) (lo : Nat) (h : s.len < lo) : s.sliceFrom lo = none := by
  simp [Slice.sliceFrom]; omega

theorem getD_append_header (h r : List Byte) (i : Nat) (hi : i < h.length) :
    (h ++ r).getD i 0 = h.getD i 0 := by
  simp [List.getD_eq_getElem?_getD, List.getElem?_append_left hi]

theorem parse_single (h : List Byte) (labels : qname) (qtype qclass : Nat) (t extra : List Byte)
    (hh : h.length = 12)
    (hqd : 256 * (h.getD 4 0).val + (h.getD 5 0).val = 1)
    (hl : ∀ l ∈ labels, 1 ≤ l.length ∧ l.length ≤ 255)
    (hqt : qtype < 65536) (hqc : qclass < 65536) :
    ∃ m, Parse (Slice.window (h ++ encName labels ++ be16 qtype ++ be16 qclass ++ t) extra)
        = Res.ok m ∧ m.Questions = [⟨labels, qtype, qclass⟩] := by
  generalize hs : Slice.window (h ++ encName labels ++ be16 qtype ++ be16 qclass ++ t) extra = s
  have harr : s.arr = h ++ (encName labels ++ (be16 qtype ++ (be16 qclass ++ (t ++ extra)))) := by
    rw [← hs]; simp [Slice.window]
  have hlen : s.len = 12 + (encName labels).length + 4 + t.length := by
    rw [← hs]; simp [Slice.window, be16, hh]; omega
  have hcap := s.len_le
  have hhd := parseHeader_some s (by omega) (by omega)
  have hq : (headerOf s.arr).qdcount = 1 := by
    simp only [headerOf, harr]
    rw [getD_append_header _ _ 4 (by omega), getD_append_header _ _ 5 (by omega)]
    exact hqd
  obtain ⟨d, hd, hda, hdl⟩ := sliceFrom_some s 12 (by omega)
  have hda2 : d.arr = encName labels ++ (be16 qtype ++ (be16 qclass ++ (t ++ extra))) := by
    rw [hda, harr, ← hh, List.drop_left]
  have hpq := parseQuestion_record d labels qtype qclass (t ++ extra) hl hqt hqc hda2 (by omega)
  refine ⟨⟨headerOf s.arr, [⟨labels, qtype, qclass⟩]⟩, ?_, rfl⟩
  unfold Parse
  simp only [hhd, hq]
  simp [ParseLoop, hd, hpq]


/-- With a budget above the number of octets left, the label loop ends in a
panic or leaves with its cursor on a zero octet. -/
theorem loop_outcome (data : Slice) :
    ∀ (k n : Nat) (name : qname), data.len < k + 1 + n →
      parseQuestionLoop data (k + 1) n name = Res.panic ∨
      ∃ n1 name1, parseQuestionLoop data (k + 1) n name = Res.ok (n1, name1)
        ∧ data.index n1 = some 0 := by
  intro k
  induction k with
  | zero =>
    intro n name h
    left
    rw [parseQuestionLoop, index_none data n (by omega)]
  | succ k ih =>
    intro n name h
    rw [parseQuestionLoop]
    cases hidx : data.index n with
    | none => left; rfl
    | some b =>
      by_cases hb : b.val = 0
      · right
        refine ⟨n, name, by simp [hb], ?_⟩
        rw [hidx]
        exact congrArg some (Fin.ext hb)
      · simp only [hb, if_false]
        cases hs : data.slice (n + 1) (n + 1 + b.val) with
        | none => left; rfl
        | some label => exact ih (n + (b.val + 1)) (name ++ [label.bytes]) (by omega)

theorem parseQuestion_outcome (data : Slice) :
    parseQuestion data = Res.panic ∨ ∃ q n, parseQuestion data = Res.ok (q, n) := by
  unfold parseQuestion
  rcases loop_outcome data data.len 0 [] (by omega) with h | ⟨n1, name1, h, hz⟩
  · left; rw [h]
  · rw [h]
    simp only [hz]
    cases h1 : (data.slice (n1 + 1) (n1 + 1 + 2)).bind Uint16 with
    | none => left; simp
    | some qt =>
      cases h2 : (data.slice (n1 + 1 + 2) (n1 + 1 + 4)).bind Uint16 with
      | none => left; simp
      | some qc => right; exact ⟨⟨name1, qt, qc⟩, n1 + 1, by simp⟩

theorem ParseLoop_outcome (packet : Slice) (qdcount : Nat) :
    ∀ (k offset : Nat) (questions : List question),
      questions.length ≤ qdcount → qdcount ≤ k + questions.length →
      ParseLoop packet qdcount k offset questions = Res.panic ∨
      ∃ qs, ParseLoop packet qdcount k offset questions = Res.ok qs ∧ qs.length = qdcount := by
  intro k
  induction k with
  | zero =>
    intro offset questions h1 h2
    right
    exact ⟨questions, by simp [ParseLoop]; omega, by omega⟩
  | succ k ih =>
    intro offset questions h1 h2
    rw [ParseLoop]
    by_cases hlt : questions.length < qdcount
    · simp only [hlt, if_true]
      cases hs : packet.sliceFrom (12 + offset) with
      | none => left; rfl
      | some data =>
        rcases parseQuestion_outcome data with h | ⟨q, n, h⟩
        · left; simp [h]
        · simp only [h]
          exact ih (offset + n) (questions ++ [q]) (by simp; omega) (by simp; omega)
    · right
      exact ⟨questions, by simp [hlt], by omega⟩

theorem Parse_outcome (packet : Slice) :
    Parse packet = Res.panic ∨
    ∃ h qs, parseHeader packet = some h ∧ Parse packet = Res.ok ⟨h, qs⟩ ∧ qs.length = h.qdcount := by
  unfold Parse
  cases hh : parseHeader packet with
  | none => left; rfl
  | some h =>
    rcases ParseLoop_outcome packet h.qdcount h.qdcount 0 [] (by simp) (by simp) with h1 | ⟨qs, h1, h2⟩
    · left; simp [h1]
    · right; exact ⟨h, qs, rfl, by simp [h1], h2⟩

/-- After a run of encoded labels of the first question, a non-zero length octet
that announces more bytes than the buffer still holds makes Parse panic,
whatever the capacity: either the slice expression of the label is out of range,
or the cursor lands outside the buffer and the next index expression is. -/
theorem parse_overrun (s : Slice) (h : List Byte) (pre : qname) (L : Byte) (rest : List Byte)
    (harr : s.arr = h ++ (encLabels pre ++ L :: rest))
    (hh : h.length = 12)
    (hqd : 1 ≤ 256 * (h.getD 4 0).val + (h.getD 5 0).val)
    (hpre : ∀ l ∈ pre, 1 ≤ l.length ∧ l.length ≤ 255)
    (hL : L.val ≠ 0)
    (hin : 12 + (encLabels pre).length < s.len)
    (hover : s.len ≤ 12 + (encLabels pre).length + L.val) :
    Parse s = Res.panic := by
  have hcap := s.len_le
  have hhd := parseHeader_some s (by omega) (by omega)
  have hq : (headerOf s.arr).qdcount = 256 * (h.getD 4 0).val + (h.getD 5 0).val := by
    simp only [headerOf, harr]
    rw [getD_append_header _ _ 4 (by omega), getD_append_header _ _ 5 (by omega)]
  obtain ⟨d, hd, hda, hdl⟩ := sliceFrom_some s 12 (by omega)
  have hda2 : d.arr = encLabels pre ++ L :: rest := by
    rw [hda, harr, ← hh, List.drop_left]
  have hle := length_le_encLabels pre
  obtain ⟨k, hk⟩ : ∃ k, d.len + 1 = (k + 2) + pre.length :=
    ⟨d.len - pre.length - 1, by omega⟩
  have hloop := loop_labels d pre hpre (k + 2) 0 [] (L :: rest) (by simp [hda2]) (by omega)
  simp only [Nat.zero_add, List.nil_append] at hloop
  have hdn : d.arr.drop (encLabels pre).length = L :: rest := by
    rw [hda2, List.drop_left]
  have hidx := index_of_drop d _ _ _ hdn (by omega)
  have hstep : parseQuestionLoop d (k + 2) (encLabels pre).length pre = Res.panic := by
    rw [parseQuestionLoop]
    simp only [hidx]
    rw [if_neg hL]
    cases hs : d.slice ((encLabels pre).length + 1) ((encLabels pre).length + 1 + L.val) with
    | none => rfl
    | some label =>
      simp only []
      rw [parseQuestionLoop, index_none d _ (by omega)]
  have hpq : parseQuestion d = Res.panic := by
    unfold parseQuestion
    rw [hk, hloop, hstep]
  obtain ⟨j, hj⟩ : ∃ j, (headerOf s.arr).qdcount = j + 1 :=
    ⟨(headerOf s.arr).qdcount - 1, by omega⟩
  unfold Parse
  simp only [hhd]
  rw [hj, ParseLoop]
  simp [hd, hpq]

theorem parseHeader_inv (s : Slice) (h : header) (hh : parseHeader s = some h) :
    4 ≤ s.len ∧ 6 ≤ s.arr.length ∧ h = headerOf s.arr := by
  by_cases hc : s.len < 4 ∨ s.arr.length < 6
  · rw [parseHeader_none s hc] at hh
    cases hh
  · have h4 : 4 ≤ s.len := by omega
    have h6 : 6 ≤ s.arr.length := by omega
    rw [parseHeader_some s h4 h6] at hh
    exact ⟨h4, h6, (Option.some.inj hh).symm⟩

theorem Parse_of_qdcount_zero (s : Slice) (h4 : 4 ≤ s.len) (h6 : 6 ≤ s.arr.length)
    (hq : (headerOf s.arr).qdcount = 0) : Parse s = Res.ok ⟨headerOf s.arr, []⟩ := by
  unfold Parse
  simp only [parseHeader_some s h4 h6, hq]
  simp [ParseLoop]

theorem Parse_short_of_qdcount_pos (s : Slice) (h12 : s.len < 12)
    (hq : (headerOf s.arr).qdcount ≠ 0) : Parse s = Res.panic := by
  unfold Parse
  cases hh : parseHeader s with
  | none => rfl
  | some h =>
    obtain ⟨_, _, rfl⟩ := parseHeader_inv s h hh
    obtain ⟨j, hj⟩ : ∃ j, (headerOf s.arr).qdcount = j + 1 :=
      ⟨(headerOf s.arr).qdcount - 1, by omega⟩
    simp only []
    rw [hj, ParseLoop]
    simp [sliceFrom_none s 12 (by omega)]

/-! ## The claims -/

/-- C1 at its input: on the packet of TestSuccessfulParse, Parse succeeds with
id 12345, qdcount 1 and one question, rendered "example.com", of type 1 and
class 1, but with qr = false: byte 2 of the packet is 1, whose bit 7 is clear,
while the claim and the assertion of the test expect qr = true. -/
theorem parse_test_packet :
    ∃ m q, Parse (Slice.ofList testPacket) = Res.ok m ∧ m.header.id = 12345
      ∧ m.header.qr = false ∧ m.header.qdcount = 1 ∧ m.Questions = [q]
      ∧ q.name.String.map Fin.val = ascii "example.com" ∧ q.qtype = 1 ∧ q.qclass = 1 :=
  ⟨testMessage, ⟨[[101, 120, 97, 109, 112, 108, 101], [99, 111, 109]], 1, 1⟩,
    by decide, by decide, by decide, by decide, by decide, by decide, by decide, by decide⟩

/-- C2: for a 12-byte header announcing one question, labels of 1 to 63 bytes,
16-bit qtype and qclass and any trailing bytes (and any further capacity of the
backing array), Parse succeeds and returns exactly the one question with these
labels, qtype and qclass. -/
theorem parse_encoded_question (h : List Byte) (labels : qname) (qtype qclass : Nat)
    (t extra : List Byte)
    (hh : h.length = 12)
    (hqd : 256 * (h.getD 4 0).val + (h.getD 5 0).val = 1)
    (hl : ∀ l ∈ labels, 1 ≤ l.length ∧ l.length ≤ 63)
    (hqt : qtype < 65536) (hqc : qclass < 65536) :
    ∃ m, Parse (Slice.window (h ++ encName labels ++ be16 qtype ++ be16 qclass ++ t) extra)
        = Res.ok m ∧ m.Questions = [⟨labels, qtype, qclass⟩] :=
  parse_single h labels qtype qclass t extra hh hqd
    (fun l hm => ⟨(hl l hm).1, le_trans (hl l hm).2 (by decide)⟩) hqt hqc

/-- Instance of C2: the question "example.com", type 1, class 1, followed by
two trailing bytes. -/
theorem parse_encoded_question_witness :
    (testPacket.take 12).length = 12
    ∧ 256 * ((testPacket.take 12).getD 4 0).val + ((testPacket.take 12).getD 5 0).val = 1
    ∧ (∀ l ∈ ([[101, 120, 97, 109, 112, 108, 101], [99, 111, 109]] : qname),
        1 ≤ l.length ∧ l.length ≤ 63)
    ∧ ∃ m, Parse (Slice.window (testPacket.take 12
          ++ encName [[101, 120, 97, 109, 112, 108, 101], [99, 111, 109]]
          ++ be16 1 ++ be16 1 ++ [7, 7]) [])
        = Res.ok m ∧ m.Questions = [⟨[[101, 120, 97, 109, 112, 108, 101], [99, 111, 109]], 1, 1⟩] :=
  ⟨by decide, by decide, by decide,
    parse_encoded_question (testPacket.take 12) [[101, 120, 97, 109, 112, 108, 101], [99, 111, 109]]
      1 1 [7, 7] [] (by decide) (by decide) (by decide) (by decide) (by decide)⟩

/-- C3 at a failing input: for a header with qdcount 2 followed by the records
of "a" and "b" (type 1, class 1), Parse returns "a" and then a question with no
label, type 256 and class 257: the second record is decoded from the type octets
of the first, because parseQuestion returns the length of the name without the
four octets of type and class. -/
theorem parse_two_questions_misaligned :
    Parse (Slice.ofList twoQuestions)
      = Res.ok ⟨⟨0, false, 0, false, false, false, false, 2⟩,
          [⟨[[97]], 1, 1⟩, ⟨[], 256, 257⟩]⟩ := by decide

/-- C4, as the code behaves: on every buffer Parse ends, and it ends either by
returning a Message or in a run-time panic of an index or slice expression; it
never returns an error value. -/
theorem parse_message_or_panic (s : Slice) :
    Parse s = Res.panic ∨ ∃ m, Parse s = Res.ok m := by
  rcases Parse_outcome s with h | ⟨h, qs, _, hp, _⟩
  · exact Or.inl h
  · exact Or.inr ⟨_, hp⟩

/-- C4 fails as stated: on the empty buffer Parse panics. -/
theorem parse_empty_panics : Parse (Slice.ofList []) = Res.panic := by decide

/-- C5, as the code behaves: on a buffer shorter than 12 bytes Parse returns no
error value.  When the buffer has at least 4 bytes, its capacity is at least 6
and the octets at offsets 4 and 5 are zero, Parse returns a Message with
qdcount 0 and no question; in every other case it panics. -/
theorem parse_short_buffer (s : Slice) (h : s.len < 12) :
    (4 ≤ s.len ∧ 6 ≤ s.cap ∧ s.arr.getD 4 0 = 0 ∧ s.arr.getD 5 0 = 0
      ∧ ∃ m, Parse s = Res.ok m ∧ m.header.qdcount = 0 ∧ m.Questions = [])
    ∨ ((s.len < 4 ∨ s.cap < 6 ∨ s.arr.getD 4 0 ≠ 0 ∨ s.arr.getD 5 0 ≠ 0)
      ∧ Parse s = Res.panic) := by
  by_cases hc : s.len < 4 ∨ s.arr.length < 6
  · right
    refine ⟨?_, ?_⟩
    · rcases hc with hc | hc
      · exact Or.inl hc
      · exact Or.inr (Or.inl hc)
    · unfold Parse
      rw [parseHeader_none s hc]
  · have h4 : 4 ≤ s.len := by omega
    have h6 : 6 ≤ s.arr.length := by omega
    by_cases hz : s.arr.getD 4 0 = 0 ∧ s.arr.getD 5 0 = 0
    · left
      have hq : (headerOf s.arr).qdcount = 0 := by
        show 256 * (s.arr.getD 4 0).val + (s.arr.getD 5 0).val = 0
        rw [hz.1, hz.2]; rfl
      exact ⟨h4, h6, hz.1, hz.2, _, Parse_of_qdcount_zero s h4 h6 hq, hq, rfl⟩
    · right
      have hne : (headerOf s.arr).qdcount ≠ 0 := by
        intro hq
        apply hz
        have hq2 : 256 * (s.arr.getD 4 0).val + (s.arr.getD 5 0).val = 0 := hq
        exact ⟨Fin.ext (show (s.arr.getD 4 0).val = 0 by omega),
          Fin.ext (show (s.arr.getD 5 0).val = 0 by omega)⟩
      refine ⟨?_, Parse_short_of_qdcount_pos s h hne⟩
      by_cases h4z : s.arr.getD 4 0 = 0
      · exact Or.inr (Or.inr (Or.inr (fun h5 => hz ⟨h4z, h5⟩)))
      · exact Or.inr (Or.inr (Or.inl h4z))

/-- Instance of C5: a buffer of one byte. -/
theorem parse_short_buffer_witness :
    (Slice.ofList [1]).len < 12
    ∧ ((4 ≤ (Slice.ofList [1]).len ∧ 6 ≤ (Slice.ofList [1]).cap
        ∧ (Slice.ofList [1]).arr.getD 4 0 = 0 ∧ (Slice.ofList [1]).arr.getD 5 0 = 0
        ∧ ∃ m, Parse (Slice.ofList [1]) = Res.ok m ∧ m.header.qdcount = 0 ∧ m.Questions = [])
      ∨ (((Slice.ofList [1]).len < 4 ∨ (Slice.ofList [1]).cap < 6
          ∨ (Slice.ofList [1]).arr.getD 4 0 ≠ 0 ∨ (Slice.ofList [1]).arr.getD 5 0 ≠ 0)
        ∧ Parse (Slice.ofList [1]) = Res.panic)) :=
  ⟨by decide, parse_short_buffer (Slice.ofList [1]) (by decide)⟩

/-- C5 fails as stated: on a buffer of six zero bytes Parse returns a Message
and a nil error. -/
theorem parse_six_zero_bytes :
    Parse (Slice.ofList [0, 0, 0, 0, 0, 0])
      = Res.ok ⟨⟨0, false, 0, false, false, false, false, 0⟩, []⟩ := by decide

/-- C6, as the code behaves: let the buffer hold at least 12 bytes with
qdcount at least 1 and let the name of the first question reach, after any
labels, a non-zero length octet L with fewer than L bytes of the buffer after
it.  Then Parse ends in a run-time panic, whatever the capacity of the buffer:
it returns neither an error value nor a Message. -/
theorem parse_label_overrun (h : List Byte) (pre : qname) (L : Byte) (r extra : List Byte)
    (hh : h.length = 12)
    (hqd : 1 ≤ 256 * (h.getD 4 0).val + (h.getD 5 0).val)
    (hpre : ∀ l ∈ pre, 1 ≤ l.length ∧ l.length ≤ 255)
    (hL : L.val ≠ 0) (hrest : r.length < L.val) :
    Parse (Slice.window (h ++ encLabels pre ++ (L :: r)) extra) = Res.panic := by
  apply parse_overrun _ h pre L (r ++ extra) _ hh hqd hpre hL
  · simp [Slice.window, hh]
  · simp [Slice.window, hh]
    omega
  · simp [Slice.window]

/-- Instance of C6: after the label "ab", the length octet 5 with one byte left
in the buffer, in a backing array that holds eight more bytes. -/
theorem parse_label_overrun_witness :
    (plainHeader 1).length = 12
    ∧ 1 ≤ 256 * ((plainHeader 1).getD 4 0).val + ((plainHeader 1).getD 5 0).val
    ∧ (5 : Byte).val ≠ 0
    ∧ ([97] : List Byte).length < (5 : Byte).val
    ∧ Parse (Slice.window (plainHeader 1 ++ encLabels [[97, 98]] ++ (5 :: [97]))
        [98, 99, 100, 101, 0, 0, 1, 0]) = Res.panic :=
  ⟨by decide, by decide, by decide, by decide,
    parse_label_overrun (plainHeader 1) [[97, 98]] 5 [97] [98, 99, 100, 101, 0, 0, 1, 0]
      (by decide) (by decide) (by decide) (by decide) (by decide)⟩

/-- C6 fails as stated: when the length octet 5 is followed by one byte, Parse
panics instead of returning an error value. -/
theorem parse_overrun_packet_panics : Parse (Slice.ofList overrunPacket) = Res.panic := by
  decide

/-- C7, as the code behaves: an octet L of 192 or more at a label-length
position of the first question is an ordinary label length.  When the L bytes
after it are followed by the rest of a well-formed name (labels of 1 to 255
bytes, a zero octet), the type and the class, Parse succeeds and the L bytes
are one label of the name. -/
theorem parse_octet_192_is_length (h : List Byte) (pre post : qname) (L : Byte)
    (body : List Byte) (qtype qclass : Nat) (t extra : List Byte)
    (hh : h.length = 12)
    (hqd : 256 * (h.getD 4 0).val + (h.getD 5 0).val = 1)
    (hpre : ∀ l ∈ pre, 1 ≤ l.length ∧ l.length ≤ 255)
    (hpost : ∀ l ∈ post, 1 ≤ l.length ∧ l.length ≤ 255)
    (hL : 192 ≤ L.val) (hb : body.length = L.val)
    (hqt : qtype < 65536) (hqc : qclass < 65536) :
    ∃ m, Parse (Slice.window (h ++ encLabels pre ++ (L :: body) ++ encName post
          ++ be16 qtype ++ be16 qclass ++ t) extra) = Res.ok m
      ∧ m.Questions = [⟨pre ++ body :: post, qtype, qclass⟩] := by
  have hoct : octet body.length = L := by
    apply Fin.ext
    show body.length % 256 = L.val
    have := L.isLt
    omega
  have hlab : ∀ l ∈ pre ++ body :: post, 1 ≤ l.length ∧ l.length ≤ 255 := by
    intro l hm
    rcases List.mem_append.1 hm with h1 | h1
    · exact hpre l h1
    · rcases List.mem_cons.1 h1 with h2 | h2
      · have := L.isLt
        subst h2
        omega
      · exact hpost l h2
  have heq : h ++ encLabels pre ++ (L :: body) ++ encName post ++ be16 qtype ++ be16 qclass ++ t
      = h ++ encName (pre ++ body :: post) ++ be16 qtype ++ be16 qclass ++ t := by
    simp [encName, encLabels_append, encLabels, hoct]
  rw [heq]
  exact parse_single h (pre ++ body :: post) qtype qclass t extra hh hqd hlab hqt hqc

/-- Instance of C7: the octet 192 followed by 192 bytes, a zero octet, type 1
and class 1. -/
theorem parse_octet_192_is_length_witness :
    (plainHeader 1).length = 12
    ∧ 256 * ((plainHeader 1).getD 4 0).val + ((plainHeader 1).getD 5 0).val = 1
    ∧ 192 ≤ (192 : Byte).val
    ∧ (List.replicate 192 (97 : Byte)).length = (192 : Byte).val
    ∧ ∃ m, Parse (Slice.window (plainHeader 1 ++ encLabels [] ++ (192 :: List.replicate 192 97)
          ++ encName [] ++ be16 1 ++ be16 1 ++ []) []) = Res.ok m
      ∧ m.Questions = [⟨[] ++ List.replicate 192 97 :: [], 1, 1⟩] :=
  ⟨by decide, by decide, by decide, by decide,
    parse_octet_192_is_length (plainHeader 1) [] [] 192 (List.replicate 192 97) 1 1 [] []
      (by decide) (by decide) (by decide) (by decide) (by decide) (by decide) (by decide)
      (by decide)⟩

/-- C7 fails as stated: with the octet 192 followed by 192 bytes, Parse returns
a Message whose question has a label of 192 bytes; no error is reported. -/
theorem parse_pointer_packet_accepted :
    Parse (Slice.ofList pointerPacket)
      = Res.ok ⟨⟨0, false, 0, false, false, false, false, 1⟩,
          [⟨[List.replicate 192 97], 1, 1⟩]⟩ := by decide

/-- C8: on a buffer of at least 12 bytes whose bytes 4 and 5 are zero, Parse
succeeds and Questions() is empty, whatever the other bytes are. -/
theorem parse_no_questions (s : Slice) (h12 : 12 ≤ s.len)
    (h4 : s.index 4 = some 0) (h5 : s.index 5 = some 0) :
    ∃ m, Parse s = Res.ok m ∧ m.Questions = [] := by
  have hcap := s.len_le
  have e4 : s.arr.getD 4 0 = 0 := by
    rw [index_getD s 4 (by omega)] at h4
    exact Option.some.inj h4
  have e5 : s.arr.getD 5 0 = 0 := by
    rw [index_getD s 5 (by omega)] at h5
    exact Option.some.inj h5
  have hq : (headerOf s.arr).qdcount = 0 := by
    show 256 * (s.arr.getD 4 0).val + (s.arr.getD 5 0).val = 0
    rw [e4, e5]; rfl
  exact ⟨_, Parse_of_qdcount_zero s (by omega) (by omega) hq, rfl⟩

/-- Instance of C8: the header of opcodePacket followed by three bytes. -/
theorem parse_no_questions_witness :
    12 ≤ (Slice.ofList (opcodePacket ++ [9, 0, 200])).len
    ∧ (Slice.ofList (opcodePacket ++ [9, 0, 200])).index 4 = some 0
    ∧ (Slice.ofList (opcodePacket ++ [9, 0, 200])).index 5 = some 0
    ∧ ∃ m, Parse (Slice.ofList (opcodePacket ++ [9, 0, 200])) = Res.ok m ∧ m.Questions = [] :=
  ⟨by decide, by decide, by decide,
    parse_no_questions (Slice.ofList (opcodePacket ++ [9, 0, 200])) (by decide) (by decide)
      (by decide)⟩

/-- C9: when Parse succeeds, the number of questions of the Message equals its
header.qdcount, and header.qdcount is the big-endian value of the octets at
offsets 4 and 5. -/
theorem questions_length_eq_qdcount (s : Slice) (m : Message) (h : Parse s = Res.ok m) :
    m.Questions.length = m.header.qdcount
    ∧ ∃ b4 b5 : Byte, s.arr[4]? = some b4 ∧ s.arr[5]? = some b5
        ∧ m.header.qdcount = 256 * b4.val + b5.val := by
  rcases Parse_outcome s with hp | ⟨hd, qs, hh, hp, hlen⟩
  · rw [hp] at h; cases h
  · rw [hp] at h
    cases h
    obtain ⟨_, h6, rfl⟩ := parseHeader_inv s hd hh
    refine ⟨hlen, s.arr.getD 4 0, s.arr.getD 5 0, ?_, ?_, rfl⟩
    · rw [List.getD_eq_getElem?_getD, List.getElem?_eq_getElem (show 4 < s.arr.length by omega)]
      rfl
    · rw [List.getD_eq_getElem?_getD, List.getElem?_eq_getElem (show 5 < s.arr.length by omega)]
      rfl

/-- Instance of C9: the packet of TestSuccessfulParse. -/
theorem questions_length_eq_qdcount_witness :
    Parse (Slice.ofList testPacket) = Res.ok testMessage
    ∧ testMessage.Questions.length = testMessage.header.qdcount
    ∧ ∃ b4 b5 : Byte, (Slice.ofList testPacket).arr[4]? = some b4
        ∧ (Slice.ofList testPacket).arr[5]? = some b5
        ∧ testMessage.header.qdcount = 256 * b4.val + b5.val :=
  ⟨by decide, questions_length_eq_qdcount (Slice.ofList testPacket) testMessage (by decide)⟩

/-- C10 at a failing input: for a header whose byte 2 is 0b00101000 (opcode 5),
Parse returns opcode 40: the bits are masked but not shifted, and the value
exceeds 15. -/
theorem parse_opcode_not_shifted :
    Parse (Slice.ofList opcodePacket)
      = Res.ok ⟨⟨12345, false, 40, false, false, false, false, 0⟩, []⟩ := by decide

/-! ## Header fields, rendering and the returned count -/

theorem bit7_iff (b : Byte) : decide ((b.val &&& 128) > 0) = b.val.testBit 7 := by
  revert b; decide

theorem bit0_iff (b : Byte) : decide ((b.val &&& 1) > 0) = b.val.testBit 0 := by
  revert b; decide

/-- When Parse succeeds, its header is the one built from the backing array, the
buffer has at least 4 bytes and its capacity is at least 6. -/
theorem Parse_ok_header (s : Slice) (m : Message) (h : Parse s = Res.ok m) :
    4 ≤ s.len ∧ 6 ≤ s.arr.length ∧ m.header = headerOf s.arr := by
  rcases Parse_outcome s with hp | ⟨hd, qs, hh, hp, _⟩
  · rw [hp] at h; cases h
  · rw [hp] at h
    cases h
    exact parseHeader_inv s hd hh

theorem dotJoined_eq (n : qname) : qname.String n = dotJoined n := by
  induction n with
  | nil => rfl
  | cons l ls ih =>
    cases ls with
    | nil => simp [qname.String, dotJoined, List.intercalate, List.intersperse]
    | cons l2 ls2 =>
      simp only [qname.String] at ih
      simp only [qname.String, dotJoined, ← ih]
      simp [List.intercalate, List.intersperse]

/-- C11 at a failing input: for a header whose byte 2 is 0b00000110 (bit 2, aa,
and bit 1, tc, both set), Parse returns aa = false and tc = false: the header
literal never assigns these two fields. -/
theorem parse_aa_tc_not_decoded :
    Parse (Slice.ofList flagsPacket)
      = Res.ok ⟨⟨0, false, 0, false, false, false, false, 0⟩, []⟩ := by decide

/-- C12: when Parse succeeds, header.id is 256 * packet[0] + packet[1] and
header.qdcount is 256 * packet[4] + packet[5].  Bytes 0 and 1 lie inside the
buffer; bytes 4 and 5 are read by a slice expression and lie inside the buffer
whenever it has at least 6 bytes. -/
theorem header_fields_big_endian (s : Slice) (m : Message) (h : Parse s = Res.ok m) :
    ∃ b0 b1 b4 b5 : Byte, s.index 0 = some b0 ∧ s.index 1 = some b1
      ∧ s.arr[4]? = some b4 ∧ s.arr[5]? = some b5
      ∧ (6 ≤ s.len → s.index 4 = some b4 ∧ s.index 5 = some b5)
      ∧ m.header.id = 256 * b0.val + b1.val
      ∧ m.header.qdcount = 256 * b4.val + b5.val := by
  obtain ⟨h4, h6, hm⟩ := Parse_ok_header s m h
  refine ⟨s.arr.getD 0 0, s.arr.getD 1 0, s.arr.getD 4 0, s.arr.getD 5 0,
    index_getD s 0 (by omega), index_getD s 1 (by omega), ?_, ?_, ?_, ?_, ?_⟩
  · rw [List.getD_eq_getElem?_getD, List.getElem?_eq_getElem (show 4 < s.arr.length by omega)]
    rfl
  · rw [List.getD_eq_getElem?_getD, List.getElem?_eq_getElem (show 5 < s.arr.length by omega)]
    rfl
  · intro h6l
    exact ⟨index_getD s 4 (by omega), index_getD s 5 (by omega)⟩
  · rw [hm]; rfl
  · rw [hm]; rfl

/-- Instance of C12: the packet of TestSuccessfulParse, id 12345 = 256 * 48 + 57. -/
theorem header_fields_big_endian_witness :
    Parse (Slice.ofList testPacket) = Res.ok testMessage
    ∧ ∃ b0 b1 b4 b5 : Byte, (Slice.ofList testPacket).index 0 = some b0
      ∧ (Slice.ofList testPacket).index 1 = some b1
      ∧ (Slice.ofList testPacket).arr[4]? = some b4 ∧ (Slice.ofList testPacket).arr[5]? = some b5
      ∧ (6 ≤ (Slice.ofList testPacket).len
          → (Slice.ofList testPacket).index 4 = some b4 ∧ (Slice.ofList testPacket).index 5 = some b5)
      ∧ testMessage.header.id = 256 * b0.val + b1.val
      ∧ testMessage.header.qdcount = 256 * b4.val + b5.val :=
  ⟨by decide, header_fields_big_endian (Slice.ofList testPacket) testMessage (by decide)⟩

/-- C13: when Parse succeeds, header.qr is bit 7 of byte 2, header.rd is bit 0
of byte 2 and header.ra is bit 7 of byte 3; each flag is a function of that one
bit, so no other bit of the buffer has an influence on it. -/
theorem header_flags_bits (s : Slice) (m : Message) (h : Parse s = Res.ok m) :
    ∃ b2 b3 : Byte, s.index 2 = some b2 ∧ s.index 3 = some b3
      ∧ m.header.qr = b2.val.testBit 7
      ∧ m.header.rd = b2.val.testBit 0
      ∧ m.header.ra = b3.val.testBit 7 := by
  obtain ⟨h4, h6, hm⟩ := Parse_ok_header s m h
  refine ⟨s.arr.getD 2 0, s.arr.getD 3 0, index_getD s 2 (by omega), index_getD s 3 (by omega),
    ?_, ?_, ?_⟩
  · rw [hm]; exact bit7_iff _
  · rw [hm]; exact bit0_iff _
  · rw [hm]; exact bit7_iff _

/-- Instance of C13: the packet of TestSuccessfulParse, whose byte 2 is 1. -/
theorem header_flags_bits_witness :
    Parse (Slice.ofList testPacket) = Res.ok testMessage
    ∧ ∃ b2 b3 : Byte, (Slice.ofList testPacket).index 2 = some b2
      ∧ (Slice.ofList testPacket).index 3 = some b3
      ∧ testMessage.header.qr = b2.val.testBit 7
      ∧ testMessage.header.rd = b2.val.testBit 0
      ∧ testMessage.header.ra = b3.val.testBit 7 :=
  ⟨by decide, header_flags_bits (Slice.ofList testPacket) testMessage (by decide)⟩

/-- C14: qname.String is the labels joined by single dots, with no dot before
the first or after the last label; "a","b","c" render as "a.b.c", "example","com"
as "example.com" and no label as the empty string; question.String is the
rendering of the name of the question. -/
theorem name_rendering :
    (∀ n : qname, qname.String n = dotJoined n)
    ∧ (qname.String [[97], [98], [99]]).map Fin.val = ascii "a.b.c"
    ∧ (qname.String [[101, 120, 97, 109, 112, 108, 101], [99, 111, 109]]).map Fin.val
        = ascii "example.com"
    ∧ qname.String [] = []
    ∧ ∀ q : question, question.String q = qname.String q.name :=
  ⟨dotJoined_eq, by decide, by decide, rfl, fun _ => rfl⟩

/-- C16 at a failing input: on the seven octets of the record of "a" (type 1,
class 1) parseQuestion decodes the question and returns the count 3, the length
of the encoded name, not 7. -/
theorem parseQuestion_count_without_type_class :
    parseQuestion (Slice.ofList recordA) = Res.ok (⟨[[97]], 1, 1⟩, 3)
    ∧ recordA.length = 7 ∧ (encName [[97]]).length = 3 :=
  ⟨by decide, by decide, by decide⟩

/-! ## What a successful decoding of a name has read -/

theorem index_some_inv (s : Slice) (i : Nat) (b : Byte) (h : s.index i = some b) :
    i < s.len ∧ s.arr.drop i = b :: s.arr.drop (i + 1) := by
  unfold Slice.index at h
  by_cases hi : i < s.len
  · have hlt : i < s.arr.length := lt_of_lt_of_le hi s.len_le
    rw [if_pos hi, List.getElem?_eq_getElem hlt] at h
    refine ⟨hi, ?_⟩
    rw [List.drop_eq_getElem_cons hlt, Option.some.inj h]
  · rw [if_neg hi] at h
    cases h

theorem slice_some_inv (s : Slice) (lo hi : Nat) (d : Slice) (h : s.slice lo hi = some d) :
    lo ≤ hi ∧ hi ≤ s.arr.length ∧ d.arr = s.arr.drop lo ∧ d.len = hi - lo := by
  unfold Slice.slice at h
  by_cases hc : lo ≤ hi ∧ hi ≤ s.arr.length
  · rw [dif_pos hc] at h
    have := Option.some.inj h
    subst this
    exact ⟨hc.1, hc.2, rfl, rfl⟩
  · rw [dif_neg hc] at h
    cases h

theorem slice_bytes_length (s : Slice) (lo hi : Nat) (d : Slice) (h : s.slice lo hi = some d) :
    d.bytes = (s.arr.drop lo).take (hi - lo) ∧ d.bytes.length = hi - lo := by
  obtain ⟨h1, h2, h3, h4⟩ := slice_some_inv s lo hi d h
  have hb : d.bytes = (s.arr.drop lo).take (hi - lo) := by
    unfold Slice.bytes
    rw [h3, h4]
  refine ⟨hb, ?_⟩
  rw [hb, List.length_take, List.length_drop]
  omega

theorem encLabels_snoc (name : qname) (l : List Byte) :
    encLabels (name ++ [l]) = encLabels name ++ octet l.length :: l := by
  rw [encLabels_append]
  simp [encLabels]

/-- When the label loop leaves normally, the octets before its cursor are the
encoding of the labels it collected, the cursor is on a zero octet inside the
buffer, and every label has between 1 and 255 bytes. -/
theorem loop_ok_inv (data : Slice) :
    ∀ (k n : Nat) (name : qname) (n1 : Nat) (name1 : qname),
      parseQuestionLoop data k n name = Res.ok (n1, name1) →
      data.arr.take n = encLabels name →
      (∀ l ∈ name, 1 ≤ l.length ∧ l.length ≤ 255) →
      data.arr.take n1 = encLabels name1 ∧ data.index n1 = some 0
        ∧ ∀ l ∈ name1, 1 ≤ l.length ∧ l.length ≤ 255 := by
  intro k
  induction k with
  | zero =>
    intro n name n1 name1 h
    rw [parseQuestionLoop] at h
    cases h
  | succ k ih =>
    intro n name n1 name1 h henc hlab
    rw [parseQuestionLoop] at h
    cases hidx : data.index n with
    | none => rw [hidx] at h; cases h
    | some b =>
      rw [hidx] at h
      simp only [] at h
      by_cases hb : b.val = 0
      · rw [if_pos hb] at h
        have hh := Res.ok.inj h
        have e1 : n = n1 := congrArg Prod.fst hh
        have e2 : name = name1 := congrArg Prod.snd hh
        subst e1; subst e2
        refine ⟨henc, ?_, hlab⟩
        rw [hidx]
        exact congrArg some (Fin.ext hb)
      · rw [if_neg hb] at h
        cases hs : data.slice (n + 1) (n + 1 + b.val) with
        | none => rw [hs] at h; cases h
        | some label =>
          rw [hs] at h
          simp only [] at h
          obtain ⟨hn, hdrop⟩ := index_some_inv data n b hidx
          obtain ⟨hbytes, hblen⟩ := slice_bytes_length data _ _ label hs
          have hsub : n + 1 + b.val - (n + 1) = b.val := by omega
          rw [hsub] at hbytes hblen
          have hblt := b.isLt
          apply ih (n + (b.val + 1)) (name ++ [label.bytes]) n1 name1 h
          · rw [encLabels_snoc, List.take_add, henc, hdrop, List.take_succ_cons, ← hbytes]
            have : octet label.bytes.length = b := by
              apply Fin.ext
              show label.bytes.length % 256 = b.val
              rw [hblen]
              exact Nat.mod_eq_of_lt hblt
            rw [this]
          · intro l hl
            rcases List.mem_append.1 hl with h1 | h1
            · exact hlab l h1
            · have : l = label.bytes := by simpa using h1
              subst this
              omega

/-- Reading of a successful call of parseQuestion. -/
theorem parseQuestion_ok_inv (data : Slice) (q : question) (n : Nat)
    (h : parseQuestion data = Res.ok (q, n)) :
    ∃ n1, n = n1 + 1 ∧ data.arr.take n1 = encLabels q.name ∧ data.index n1 = some 0
      ∧ ∀ l ∈ q.name, 1 ≤ l.length ∧ l.length ≤ 255 := by
  unfold parseQuestion at h
  cases hl : parseQuestionLoop data (data.len + 1) 0 [] with
  | fuel => rw [hl] at h; cases h
  | panic => rw [hl] at h; cases h
  | err e => rw [hl] at h; cases h
  | ok r =>
    obtain ⟨n1, name1⟩ := r
    obtain ⟨henc, hz, hlab⟩ := loop_ok_inv data _ 0 [] n1 name1 hl (by simp [encLabels])
      (by intro l hl; cases hl)
    rw [hl] at h
    simp only [hz] at h
    cases h1 : (data.slice (n1 + 1) (n1 + 1 + 2)).bind Uint16 with
    | none => rw [h1] at h; simp at h
    | some qt =>
      rw [h1] at h
      cases h2 : (data.slice (n1 + 1 + 2) (n1 + 1 + 4)).bind Uint16 with
      | none => rw [h2] at h; simp at h
      | some qc =>
        rw [h2] at h
        simp at h
        obtain ⟨hq, hn⟩ := h
        subst hq
        exact ⟨n1, hn.symm, henc, hz, hlab⟩

/-- Reading of a successful call of Parse. -/
theorem Parse_ok_inv (s : Slice) (m : Message) (h : Parse s = Res.ok m) :
    parseHeader s = some m.header
      ∧ ParseLoop s m.header.qdcount m.header.qdcount 0 [] = Res.ok m.questions := by
  unfold Parse at h
  cases hh : parseHeader s with
  | none => rw [hh] at h; cases h
  | some hd =>
    rw [hh] at h
    simp only [] at h
    cases hl : ParseLoop s hd.qdcount hd.qdcount 0 [] with
    | fuel => rw [hl] at h; cases h
    | panic => rw [hl] at h; cases h
    | err e => rw [hl] at h; cases h
    | ok qs =>
      rw [hl] at h
      have := Res.ok.inj h
      subst this
      exact ⟨rfl, hl⟩

/-- A property of every question that parseQuestion returns on a tail
packet[12+offset:] of the packet holds for every question collected by the loop
of Parse. -/
theorem ParseLoop_all (P : question → Prop) (packet : Slice)
    (hP : ∀ offset data q n, packet.sliceFrom (12 + offset) = some data →
      parseQuestion data = Res.ok (q, n) → P q)
    (qdcount : Nat) :
    ∀ (k offset : Nat) (questions r : List question),
      ParseLoop packet qdcount k offset questions = Res.ok r →
      (∀ q ∈ questions, P q) → ∀ q ∈ r, P q := by
  intro k
  induction k with
  | zero =>
    intro offset questions r h hq
    rw [ParseLoop] at h
    by_cases hlt : questions.length < qdcount
    · rw [if_pos hlt] at h; cases h
    · rw [if_neg hlt] at h
      have := Res.ok.inj h
      subst this
      exact hq
  | succ k ih =>
    intro offset questions r h hq
    rw [ParseLoop] at h
    by_cases hlt : questions.length < qdcount
    · rw [if_pos hlt] at h
      cases hs : packet.sliceFrom (12 + offset) with
      | none => rw [hs] at h; cases h
      | some data =>
        rw [hs] at h
        simp only [] at h
        cases hp : parseQuestion data with
        | fuel => rw [hp] at h; cases h
        | panic => rw [hp] at h; cases h
        | err e => rw [hp] at h; cases h
        | ok r1 =>
          obtain ⟨q1, n1⟩ := r1
          rw [hp] at h
          apply ih (offset + n1) (questions ++ [q1]) r h
          intro q hm
          rcases List.mem_append.1 hm with h1 | h1
          · exact hq q h1
          · have : q = q1 := by simpa using h1
            subst this
            exact hP offset data q n1 hs hp
    · rw [if_neg hlt] at h
      have := Res.ok.inj h
      subst this
      exact hq

/-- In a list that starts with the encoding of a name, every label of the name
stands behind a length octet equal to its length. -/
theorem label_in_encoding (A : List Byte) (pre post : qname) (l : List Byte)
    (hl : l.length ≤ 255)
    (hA : A.take (encName (pre ++ l :: post)).length = encName (pre ++ l :: post)) :
    ∃ L : Byte, ∃ R : List Byte, L.val = l.length
      ∧ A.drop (encLabels pre).length = L :: (l ++ R) := by
  have hsplit : A = encName (pre ++ l :: post)
      ++ A.drop (encName (pre ++ l :: post)).length := by
    conv => lhs; rw [← List.take_append_drop (encName (pre ++ l :: post)).length A, hA]
  generalize A.drop (encName (pre ++ l :: post)).length = D at hsplit
  have henc : encName (pre ++ l :: post) ++ D
      = encLabels pre ++ (octet l.length :: (l ++ (encLabels post ++ [0] ++ D))) := by
    simp [encName, encLabels_append, encLabels]
  refine ⟨octet l.length, encLabels post ++ [0] ++ D, Nat.mod_eq_of_lt (by omega), ?_⟩
  rw [hsplit, henc, List.drop_left]

/-- C17, as the code behaves: every label of every name of a successfully
parsed Message has between 1 and 255 bytes and is exactly the L bytes that
follow its length octet L in the buffer, where the encoding of the whole name
(each label behind its length octet, then the zero octet) stands at the offset
from which the question was decoded.  A zero length octet ends the name and is
never stored as a label; no bound of 63 is applied. -/
theorem labels_length_bounds (s : Slice) (m : Message) (h : Parse s = Res.ok m) :
    ∀ q ∈ m.Questions,
      (∀ l ∈ q.name, 1 ≤ l.length ∧ l.length ≤ 255)
      ∧ ∃ offset,
          12 + offset + (encName q.name).length ≤ s.len
          ∧ (s.arr.drop (12 + offset)).take (encName q.name).length = encName q.name
          ∧ ∀ (pre post : qname) (l : List Byte), q.name = pre ++ l :: post →
              ∃ L : Byte, s.index (12 + offset + (encLabels pre).length) = some L
                ∧ L.val = l.length
                ∧ (s.arr.drop (12 + offset + (encLabels pre).length + 1)).take L.val = l := by
  obtain ⟨_, hl⟩ := Parse_ok_inv s m h
  show ∀ q ∈ m.questions, _
  apply ParseLoop_all (fun q => (∀ l ∈ q.name, 1 ≤ l.length ∧ l.length ≤ 255)
      ∧ ∃ offset,
          12 + offset + (encName q.name).length ≤ s.len
          ∧ (s.arr.drop (12 + offset)).take (encName q.name).length = encName q.name
          ∧ ∀ (pre post : qname) (l : List Byte), q.name = pre ++ l :: post →
              ∃ L : Byte, s.index (12 + offset + (encLabels pre).length) = some L
                ∧ L.val = l.length
                ∧ (s.arr.drop (12 + offset + (encLabels pre).length + 1)).take L.val = l)
    s _ m.header.qdcount m.header.qdcount 0 [] m.questions hl
  · intro q hq; cases hq
  · intro offset data q n hs hp
    obtain ⟨n1, hn, henc, hz, hlab⟩ := parseQuestion_ok_inv data q n hp
    obtain ⟨hlt, hdrop⟩ := index_some_inv data n1 0 hz
    have hsf : 12 + offset ≤ s.len := by
      by_cases hc : 12 + offset ≤ s.len
      · exact hc
      · rw [sliceFrom_none s _ (by omega)] at hs
        cases hs
    obtain ⟨d, hd, hda, hdl⟩ := sliceFrom_some s (12 + offset) hsf
    rw [hs] at hd
    have hdd := Option.some.inj hd
    subst hdd
    have hcap := data.len_le
    have htake : data.arr.take (n1 + 1) = encName q.name := by
      rw [List.take_add, henc, hdrop]
      rfl
    have hlen : (encName q.name).length = n1 + 1 := by
      rw [← htake, List.length_take]
      omega
    have hwhole : (s.arr.drop (12 + offset)).take (encName q.name).length = encName q.name := by
      rw [hlen, ← hda]
      exact htake
    refine ⟨hlab, offset, by omega, hwhole, ?_⟩
    intro pre post l hname
    have hmem : l ∈ q.name := by
      rw [hname]
      exact List.mem_append_right _ (List.mem_cons_self _ _)
    have hll := hlab l hmem
    rw [hname] at hwhole hlen
    obtain ⟨L, R, hLv, hdropA⟩ := label_in_encoding _ pre post l hll.2 hwhole
    rw [List.drop_drop] at hdropA
    have hpos : (encLabels pre).length + 1 + l.length < (encName (pre ++ l :: post)).length := by
      simp [encName, encLabels_append, encLabels]
      omega
    refine ⟨L, index_of_drop s _ L _ hdropA (by omega), hLv, ?_⟩
    have hnext : s.arr.drop (12 + offset + (encLabels pre).length + 1) = l ++ R := by
      rw [← List.drop_drop, hdropA]
      rfl
    rw [hnext, hLv, List.take_left]

/-- Instance of C17: the packet of TestSuccessfulParse, with labels of 7 and 3
bytes. -/
theorem labels_length_bounds_witness :
    Parse (Slice.ofList testPacket) = Res.ok testMessage
    ∧ ∀ q ∈ testMessage.Questions,
      (∀ l ∈ q.name, 1 ≤ l.length ∧ l.length ≤ 255)
      ∧ ∃ offset,
          12 + offset + (encName q.name).length ≤ (Slice.ofList testPacket).len
          ∧ ((Slice.ofList testPacket).arr.drop (12 + offset)).take (encName q.name).length
              = encName q.name
          ∧ ∀ (pre post : qname) (l : List Byte), q.name = pre ++ l :: post →
              ∃ L : Byte,
                (Slice.ofList testPacket).index (12 + offset + (encLabels pre).length) = some L
                ∧ L.val = l.length
                ∧ ((Slice.ofList testPacket).arr.drop
                    (12 + offset + (encLabels pre).length + 1)).take L.val = l :=
  ⟨by decide, labels_length_bounds (Slice.ofList testPacket) testMessage (by decide)⟩

/-- C17 fails as stated: a length octet 64 followed by 64 bytes yields a label
of 64 bytes in the returned Message. -/
theorem parse_label_of_64_bytes :
    Parse (Slice.ofList longLabelPacket)
      = Res.ok ⟨⟨0, false, 0, false, false, false, false, 1⟩,
          [⟨[List.replicate 64 97], 1, 1⟩]⟩
    ∧ (List.replicate 64 (97 : Byte)).length = 64 :=
  ⟨by decide, by decide⟩

/-- C18: when parseQuestion returns the question q and the count n, then n is
at least 1, data[n-1] is the zero octet, every label of q.name is non-empty and
the encoding of q.name (each label as its length octet and its bytes, then one
zero octet) is exactly data[0:n]. -/
theorem parseQuestion_reencodes (data : Slice) (q : question) (n : Nat)
    (h : parseQuestion data = Res.ok (q, n)) :
    1 ≤ n ∧ data.index (n - 1) = some 0 ∧ (∀ l ∈ q.name, l ≠ [])
      ∧ ∃ w, data.slice 0 n = some w ∧ w.bytes = encName q.name := by
  obtain ⟨n1, hn, henc, hz, hlab⟩ := parseQuestion_ok_inv data q n h
  subst hn
  obtain ⟨hlt, hdrop⟩ := index_some_inv data n1 0 hz
  have hcap := data.len_le
  refine ⟨by omega, by simpa using hz, ?_, ?_⟩
  · intro l hl hnil
    have := (hlab l hl).1
    rw [hnil] at this
    simp at this
  · cases hs : data.slice 0 (n1 + 1) with
    | none =>
      unfold Slice.slice at hs
      rw [dif_pos ⟨by omega, by omega⟩] at hs
      cases hs
    | some w =>
      refine ⟨w, rfl, ?_⟩
      obtain ⟨hb, _⟩ := slice_bytes_length data 0 (n1 + 1) w hs
      rw [hb, List.drop_zero, Nat.sub_zero, List.take_add, henc, hdrop]
      rfl

/-- Instance of C18: the record of the name "a". -/
theorem parseQuestion_reencodes_witness :
    parseQuestion (Slice.ofList recordA) = Res.ok (⟨[[97]], 1, 1⟩, 3)
    ∧ 1 ≤ 3 ∧ (Slice.ofList recordA).index (3 - 1) = some 0
    ∧ (∀ l ∈ (⟨[[97]], 1, 1⟩ : question).name, l ≠ [])
    ∧ ∃ w, (Slice.ofList recordA).slice 0 3 = some w
        ∧ w.bytes = encName (⟨[[97]], 1, 1⟩ : question).name :=
  ⟨by decide, parseQuestion_reencodes (Slice.ofList recordA) ⟨[[97]], 1, 1⟩ 3 (by decide)⟩

/-! ## Longer buffers -/

theorem within_index (s t : Slice) (hw : s.Within t) (i : Nat) (b : Byte)
    (h : s.index i = some b) : t.index i = some b := by
  obtain ⟨⟨x, hx⟩, hlen⟩ := hw
  unfold Slice.index at h ⊢
  by_cases hi : i < s.len
  · have hlt : i < s.arr.length := lt_of_lt_of_le hi s.len_le
    rw [if_pos hi] at h
    rw [if_pos (by omega), hx, List.getElem?_append_left hlt]
    exact h
  · rw [if_neg hi] at h
    cases h

theorem within_slice (s t : Slice) (hw : s.Within t) (lo hi : Nat) (d : Slice)
    (h : s.slice lo hi = some d) :
    ∃ e, t.slice lo hi = some e ∧ d.Within e ∧ e.bytes = d.bytes := by
  obtain ⟨⟨x, hx⟩, _⟩ := hw
  obtain ⟨h1, h2, h3, h4⟩ := slice_some_inv s lo hi d h
  have hcap : hi ≤ t.arr.length := by
    rw [hx, List.length_append]; omega
  have hdrop : t.arr.drop lo = s.arr.drop lo ++ x := by
    rw [hx, List.drop_append_of_le_length (by omega)]
  refine ⟨⟨t.arr.drop lo, hi - lo, by rw [List.length_drop]; omega⟩, ?_, ?_, ?_⟩
  · unfold Slice.slice
    rw [dif_pos ⟨h1, hcap⟩]
  · exact ⟨⟨x, by rw [h3]; exact hdrop⟩, by rw [h4]⟩
  · unfold Slice.bytes
    simp only []
    rw [h3, h4, hdrop, List.take_append_of_le_length (by rw [List.length_drop]; omega)]

theorem within_sliceFrom (s t : Slice) (hw : s.Within t) (lo : Nat) (d : Slice)
    (h : s.sliceFrom lo = some d) :
    ∃ e, t.sliceFrom lo = some e ∧ d.Within e := by
  obtain ⟨⟨x, hx⟩, hlen⟩ := hw
  have hs := s.len_le
  unfold Slice.sliceFrom at h
  by_cases hc : lo ≤ s.len
  · rw [dif_pos hc] at h
    have hd := Option.some.inj h
    obtain ⟨e, he, hea, hel⟩ := sliceFrom_some t lo (by omega)
    refine ⟨e, he, ⟨x, ?_⟩, ?_⟩
    · rw [hea, ← hd, hx, List.drop_append_of_le_length (by omega)]
    · rw [hel, ← hd]
      show s.len - lo ≤ t.len - lo
      omega
  · rw [dif_neg hc] at h
    cases h

theorem within_Uint16 (b c : Slice) (hw : b.Within c) (v : Nat) (h : Uint16 b = some v) :
    Uint16 c = some v := by
  unfold Uint16 at h ⊢
  cases h1 : b.index 1 with
  | none => rw [h1] at h; cases h
  | some b1 =>
    rw [h1] at h
    simp only [] at h
    cases h0 : b.index 0 with
    | none => rw [h0] at h; cases h
    | some b0 =>
      rw [h0] at h
      rw [within_index b c hw 1 b1 h1, within_index b c hw 0 b0 h0]
      exact h

theorem within_slice_Uint16 (s t : Slice) (hw : s.Within t) (lo hi v : Nat)
    (h : (s.slice lo hi).bind Uint16 = some v) : (t.slice lo hi).bind Uint16 = some v := by
  cases hs : s.slice lo hi with
  | none => rw [hs] at h; cases h
  | some d =>
    rw [hs] at h
    obtain ⟨e, he, hde, _⟩ := within_slice s t hw lo hi d hs
    rw [he]
    exact within_Uint16 d e hde v h

theorem within_loop (d e : Slice) (hw : d.Within e) :
    ∀ (k n : Nat) (name : qname) (r : Nat × qname),
      parseQuestionLoop d k n name = Res.ok r →
      ∀ j, parseQuestionLoop e (k + j) n name = Res.ok r := by
  intro k
  induction k with
  | zero =>
    intro n name r h
    rw [parseQuestionLoop] at h
    cases h
  | succ k ih =>
    intro n name r h j
    rw [parseQuestionLoop] at h
    rw [Nat.add_right_comm, parseQuestionLoop]
    cases hidx : d.index n with
    | none => rw [hidx] at h; cases h
    | some b =>
      rw [hidx] at h
      rw [within_index d e hw n b hidx]
      simp only [] at h ⊢
      by_cases hb : b.val = 0
      · rw [if_pos hb] at h
        rw [if_pos hb]
        exact h
      · rw [if_neg hb] at h
        rw [if_neg hb]
        cases hs : d.slice (n + 1) (n + 1 + b.val) with
        | none => rw [hs] at h; cases h
        | some label =>
          rw [hs] at h
          obtain ⟨l2, hl2, _, hbytes⟩ := within_slice d e hw _ _ label hs
          rw [hl2]
          simp only [] at h ⊢
          rw [hbytes]
          exact ih _ _ r h j

theorem within_parseQuestion (d e : Slice) (hw : d.Within e) (r : question × Nat)
    (h : parseQuestion d = Res.ok r) : parseQuestion e = Res.ok r := by
  unfold parseQuestion at h ⊢
  cases hl : parseQuestionLoop d (d.len + 1) 0 [] with
  | fuel => rw [hl] at h; cases h
  | panic => rw [hl] at h; cases h
  | err m => rw [hl] at h; cases h
  | ok p =>
    obtain ⟨n1, name1⟩ := p
    have hlen : e.len + 1 = d.len + 1 + (e.len - d.len) := by
      have := hw.2
      omega
    rw [hlen, within_loop d e hw _ 0 [] (n1, name1) hl]
    rw [hl] at h
    simp only [] at h ⊢
    cases hidx : d.index n1 with
    | none => rw [hidx] at h; cases h
    | some b =>
      rw [hidx] at h
      rw [within_index d e hw n1 b hidx]
      simp only [] at h ⊢
      by_cases hb : b.val = 0
      · simp only [hb, ne_eq, not_true_eq_false, if_false] at h ⊢
        cases h1 : (d.slice (n1 + 1) (n1 + 1 + 2)).bind Uint16 with
        | none => rw [h1] at h; cases h
        | some qt =>
          rw [h1] at h
          rw [within_slice_Uint16 d e hw _ _ qt h1]
          simp only [] at h ⊢
          cases h2 : (d.slice (n1 + 1 + 2) (n1 + 1 + 4)).bind Uint16 with
          | none => rw [h2] at h; cases h
          | some qc =>
            rw [h2] at h
            rw [within_slice_Uint16 d e hw _ _ qc h2]
            exact h
      · simp only [hb, ne_eq, not_false_eq_true, if_true] at h
        cases h

theorem within_ParseLoop (s t : Slice) (hw : s.Within t) (qdcount : Nat) :
    ∀ (k offset : Nat) (questions r : List question),
      ParseLoop s qdcount k offset questions = Res.ok r →
      ParseLoop t qdcount k offset questions = Res.ok r := by
  intro k
  induction k with
  | zero =>
    intro offset questions r h
    rw [ParseLoop] at h ⊢
    exact h
  | succ k ih =>
    intro offset questions r h
    rw [ParseLoop] at h ⊢
    by_cases hlt : questions.length < qdcount
    · rw [if_pos hlt] at h
      rw [if_pos hlt]
      cases hs : s.sliceFrom (12 + offset) with
      | none => rw [hs] at h; cases h
      | some d =>
        rw [hs] at h
        obtain ⟨e, he, hde⟩ := within_sliceFrom s t hw _ d hs
        rw [he]
        simp only [] at h ⊢
        cases hp : parseQuestion d with
        | fuel => rw [hp] at h; cases h
        | panic => rw [hp] at h; cases h
        | err m => rw [hp] at h; cases h
        | ok p =>
          rw [hp] at h
          rw [within_parseQuestion d e hde p hp]
          exact ih _ _ r h
    · rw [if_neg hlt] at h
      rw [if_neg hlt]
      exact h

theorem within_parseHeader (s t : Slice) (hw : s.Within t) (hd : header)
    (h : parseHeader s = some hd) : parseHeader t = some hd := by
  obtain ⟨h4, h6, rfl⟩ := parseHeader_inv s hd h
  obtain ⟨⟨x, hx⟩, hlen⟩ := hw
  have h6t : 6 ≤ t.arr.length := by
    rw [hx, List.length_append]; omega
  rw [parseHeader_some t (by omega) h6t]
  congr 1
  unfold headerOf
  rw [hx]
  simp only [getD_append_header s.arr x 0 (by omega), getD_append_header s.arr x 1 (by omega),
    getD_append_header s.arr x 2 (by omega), getD_append_header s.arr x 3 (by omega),
    getD_append_header s.arr x 4 (by omega), getD_append_header s.arr x 5 (by omega)]

/-- A successful Parse gives the same Message on every slice whose backing
array starts with the backing array of the first and which is at least as
long. -/
theorem within_Parse (s t : Slice) (hw : s.Within t) (m : Message)
    (h : Parse s = Res.ok m) : Parse t = Res.ok m := by
  obtain ⟨hh, hl⟩ := Parse_ok_inv s m h
  unfold Parse
  rw [within_parseHeader s t hw _ hh]
  simp only []
  rw [within_ParseLoop s t hw _ _ _ _ _ hl]

/-- The bytes of a slice, taken as a buffer of their own, lie within the slice. -/
theorem ofList_bytes_within (p : Slice) : (Slice.ofList p.bytes).Within p := by
  refine ⟨⟨p.arr.drop p.len, ?_⟩, ?_⟩
  · exact (List.take_append_drop p.len p.arr).symm
  · show (p.arr.take p.len).length ≤ p.len
    rw [List.length_take]
    omega

/-- C15, as the code behaves: let Parse succeed on the buffer p with the
Message m, and let p have no spare capacity or let Parse succeed on the bytes of
p alone as well.  Then on p followed by any bytes t, whatever the capacity of
the longer buffer, Parse succeeds with the same Message m. -/
theorem parse_trailing_bytes_ignored (p : Slice) (m : Message) (t extra : List Byte)
    (h : Parse p = Res.ok m)
    (hown : p.cap = p.len ∨ ∃ m0, Parse (Slice.ofList p.bytes) = Res.ok m0) :
    Parse (Slice.window (p.bytes ++ t) extra) = Res.ok m := by
  have hlong : (Slice.ofList p.bytes).Within (Slice.window (p.bytes ++ t) extra) := by
    refine ⟨⟨t ++ extra, ?_⟩, ?_⟩
    · simp [Slice.window, Slice.ofList]
    · simp [Slice.window, Slice.ofList]
  rcases hown with hcap | ⟨m0, h0⟩
  · have hb : p.bytes = p.arr := by
      unfold Slice.bytes
      exact List.take_of_length_le (by unfold Slice.cap at hcap; omega)
    apply within_Parse p _ _ m h
    refine ⟨⟨t ++ extra, ?_⟩, ?_⟩
    · simp [Slice.window, hb]
    · have := p.len_le
      simp [Slice.window, hb]
      omega
  · have hm := within_Parse _ p (ofList_bytes_within p) m0 h0
    rw [h] at hm
    have := Res.ok.inj hm
    subst this
    exact within_Parse _ _ hlong m h0

/-- Instance of C15: the packet of TestSuccessfulParse in an array that holds
three more bytes, followed by two other bytes. -/
theorem parse_trailing_bytes_ignored_witness :
    Parse (Slice.window testPacket [1, 2, 3]) = Res.ok testMessage
    ∧ ((Slice.window testPacket [1, 2, 3]).cap = (Slice.window testPacket [1, 2, 3]).len
        ∨ ∃ m0, Parse (Slice.ofList (Slice.window testPacket [1, 2, 3]).bytes) = Res.ok m0)
    ∧ Parse (Slice.window ((Slice.window testPacket [1, 2, 3]).bytes ++ [192, 12]) [])
        = Res.ok testMessage :=
  ⟨by decide, Or.inr ⟨testMessage, by decide⟩,
    parse_trailing_bytes_ignored (Slice.window testPacket [1, 2, 3]) testMessage [192, 12] []
      (by decide) (Or.inr ⟨testMessage, by decide⟩)⟩

/-- C15 fails as stated: on a buffer of 13 bytes whose backing array goes on
with the octets 0,1,0,1, Parse succeeds and reads type 1 and class 1 from the
spare capacity; on the same 13 bytes followed by 9,9,9,9 it returns another
Message, with type and class 2313. -/
theorem parse_spare_capacity_then_append :
    Parse spareCapacityBuffer
      = Res.ok ⟨⟨0, false, 0, false, false, false, false, 1⟩, [⟨[], 1, 1⟩]⟩
    ∧ Parse (Slice.ofList (spareCapacityBuffer.bytes ++ [9, 9, 9, 9]))
      = Res.ok ⟨⟨0, false, 0, false, false, false, false, 1⟩, [⟨[], 2313, 2313⟩]⟩ :=
  ⟨by decide, by decide⟩

/-! ## The error branch and termination -/

/-- The label loop leaves normally only with its cursor on a zero octet. -/
theorem loop_exit_on_zero (data : Slice) :
    ∀ (k n : Nat) (name : qname) (n1 : Nat) (name1 : qname),
      parseQuestionLoop data k n name = Res.ok (n1, name1) → data.index n1 = some 0 := by
  intro k
  induction k with
  | zero =>
    intro n name n1 name1 h
    rw [parseQuestionLoop] at h
    cases h
  | succ k ih =>
    intro n name n1 name1 h
    rw [parseQuestionLoop] at h
    cases hidx : data.index n with
    | none => rw [hidx] at h; cases h
    | some b =>
      rw [hidx] at h
      simp only [] at h
      by_cases hb : b.val = 0
      · rw [if_pos hb] at h
        have e1 : n = n1 := congrArg Prod.fst (Res.ok.inj h)
        subst e1
        rw [hidx]
        exact congrArg some (Fin.ext hb)
      · rw [if_neg hb] at h
        cases hs : data.slice (n + 1) (n + 1 + b.val) with
        | none => rw [hs] at h; cases h
        | some label =>
          rw [hs] at h
          exact ih _ _ n1 name1 h

/-- One iteration of the label loop: it panics, or leaves with the state it was
entered with, or appends one label of at least one byte and moves the cursor,
which was inside the buffer, past the length octet and the label. -/
theorem loop_step (data : Slice) (k n : Nat) (name : qname) :
    parseQuestionLoop data (k + 1) n name = Res.panic
    ∨ parseQuestionLoop data (k + 1) n name = Res.ok (n, name)
    ∨ ∃ label : List Byte, 1 ≤ label.length ∧ n < data.len
        ∧ n + 2 ≤ n + (label.length + 1)
        ∧ parseQuestionLoop data (k + 1) n name
          = parseQuestionLoop data k (n + (label.length + 1)) (name ++ [label]) := by
  rw [parseQuestionLoop]
  cases hidx : data.index n with
  | none => exact Or.inl rfl
  | some b =>
    simp only []
    by_cases hb : b.val = 0
    · rw [if_pos hb]
      exact Or.inr (Or.inl rfl)
    · rw [if_neg hb]
      cases hs : data.slice (n + 1) (n + 1 + b.val) with
      | none => exact Or.inl rfl
      | some label =>
        obtain ⟨_, hlen⟩ := slice_bytes_length data _ _ label hs
        have hl : label.bytes.length = b.val := by omega
        refine Or.inr (Or.inr ⟨label.bytes, by omega, (index_some_inv data n b hidx).1, by omega, ?_⟩)
        simp only [hl]

/-- One iteration of the question loop of Parse: it stops with the questions it
has, or panics, or appends exactly one question. -/
theorem ParseLoop_step (packet : Slice) (qdcount k offset : Nat) (questions : List question) :
    ParseLoop packet qdcount (k + 1) offset questions = Res.panic
    ∨ (qdcount ≤ questions.length
        ∧ ParseLoop packet qdcount (k + 1) offset questions = Res.ok questions)
    ∨ ∃ q n, questions.length < qdcount
        ∧ (questions ++ [q]).length = questions.length + 1
        ∧ ParseLoop packet qdcount (k + 1) offset questions
          = ParseLoop packet qdcount k (offset + n) (questions ++ [q]) := by
  rw [ParseLoop]
  by_cases hlt : questions.length < qdcount
  · rw [if_pos hlt]
    cases hs : packet.sliceFrom (12 + offset) with
    | none => exact Or.inl rfl
    | some data =>
      simp only []
      rcases parseQuestion_outcome data with hp | ⟨q, n, hp⟩
      · rw [hp]
        exact Or.inl rfl
      · rw [hp]
        exact Or.inr (Or.inr ⟨q, n, hlt, by simp, rfl⟩)
  · rw [if_neg hlt]
    exact Or.inr (Or.inl ⟨by omega, rfl⟩)

theorem qdcount_le (s : Slice) (h : header) (hh : parseHeader s = some h) :
    h.qdcount ≤ 65535 := by
  obtain ⟨_, _, rfl⟩ := parseHeader_inv s h hh
  show 256 * (s.arr.getD 4 0).val + (s.arr.getD 5 0).val ≤ 65535
  have h4 := (s.arr.getD 4 0).isLt
  have h5 := (s.arr.getD 5 0).isLt
  omega

/-- C19: the label loop of parseQuestion leaves only on a zero octet, so the
test `data[n] != 0` after it never holds: parseQuestion returns no error, Parse
returns no error, and whenever Parse returns no Message it has panicked in an
index or slice expression. -/
theorem error_branch_unreachable :
    (∀ (data : Slice) (k n : Nat) (name : qname) (n1 : Nat) (name1 : qname),
        parseQuestionLoop data k n name = Res.ok (n1, name1) → data.index n1 = some 0)
    ∧ (∀ (data : Slice) (e : String), parseQuestion data ≠ Res.err e)
    ∧ (∀ (s : Slice) (e : String), Parse s ≠ Res.err e)
    ∧ (∀ s : Slice, (¬ ∃ m, Parse s = Res.ok m) → Parse s = Res.panic) := by
  refine ⟨loop_exit_on_zero, ?_, ?_, ?_⟩
  · intro data e h
    rcases parseQuestion_outcome data with hp | ⟨q, n, hp⟩
    · rw [hp] at h; cases h
    · rw [hp] at h; cases h
  · intro s e h
    rcases Parse_outcome s with hp | ⟨hd, qs, _, hp, _⟩
    · rw [hp] at h; cases h
    · rw [hp] at h; cases h
  · intro s hno
    rcases Parse_outcome s with hp | ⟨hd, qs, _, hp, _⟩
    · exact hp
    · exact absurd ⟨_, hp⟩ hno

/-- C20: Parse terminates on every input.  Each iteration of the label loop
that goes on has its cursor inside the buffer and moves it forward by the label
length plus one, at least 2, so that len(data) + 1 iterations are never used
up; the question loop adds one question per iteration and never uses up qdcount
iterations, and qdcount is at most 65535. -/
theorem parse_terminates :
    (∀ (data : Slice) (k n : Nat) (name : qname),
        parseQuestionLoop data (k + 1) n name = Res.panic
        ∨ parseQuestionLoop data (k + 1) n name = Res.ok (n, name)
        ∨ ∃ label : List Byte, 1 ≤ label.length ∧ n < data.len
            ∧ n + 2 ≤ n + (label.length + 1)
            ∧ parseQuestionLoop data (k + 1) n name
              = parseQuestionLoop data k (n + (label.length + 1)) (name ++ [label]))
    ∧ (∀ data : Slice, parseQuestionLoop data (data.len + 1) 0 [] ≠ Res.fuel)
    ∧ (∀ data : Slice, parseQuestion data ≠ Res.fuel)
    ∧ (∀ (packet : Slice) (qdcount k offset : Nat) (questions : List question),
        ParseLoop packet qdcount (k + 1) offset questions = Res.panic
        ∨ (qdcount ≤ questions.length
            ∧ ParseLoop packet qdcount (k + 1) offset questions = Res.ok questions)
        ∨ ∃ q n, questions.length < qdcount
            ∧ (questions ++ [q]).length = questions.length + 1
            ∧ ParseLoop packet qdcount (k + 1) offset questions
              = ParseLoop packet qdcount k (offset + n) (questions ++ [q]))
    ∧ (∀ (s : Slice) (h : header), parseHeader s = some h →
        h.qdcount ≤ 65535 ∧ ParseLoop s h.qdcount h.qdcount 0 [] ≠ Res.fuel)
    ∧ (∀ s : Slice, Parse s ≠ Res.fuel) := by
  refine ⟨loop_step, ?_, ?_, ParseLoop_step, ?_, ?_⟩
  · intro data h
    rcases loop_outcome data data.len 0 [] (by omega) with hp | ⟨n1, name1, hp, _⟩
    · rw [hp] at h; cases h
    · rw [hp] at h; cases h
  · intro data h
    rcases parseQuestion_outcome data with hp | ⟨q, n, hp⟩
    · rw [hp] at h; cases h
    · rw [hp] at h; cases h
  · intro s h hh
    refine ⟨qdcount_le s h hh, ?_⟩
    intro hf
    rcases ParseLoop_outcome s h.qdcount h.qdcount 0 [] (by simp) (by simp) with hp | ⟨qs, hp, _⟩
    · rw [hp] at hf; cases hf
    · rw [hp] at hf; cases hf
  · intro s h
    rcases Parse_outcome s with hp | ⟨hd, qs, _, hp, _⟩
    · rw [hp] at h; cases h
    · rw [hp] at h; cases h

end dns
